import Mathlib

/-!
# Verification of the `simple-bitrange` bit-range read/write core

Shallow embedding of `src/lib.rs`. Byte buffers are `List Nat` whose
elements are `< 256` (the `u8` invariant is carried as a hypothesis
`ByteOk`). `usize` arithmetic is modelled with checked operations:
Rust's debug-mode overflow checks make an underflowing subtraction or an
overflowing addition panic, which we model as `none`. Shifting a `u128`
by an amount `≥ 128` likewise panics and is modelled as `none`; shifts
by in-range amounts silently drop high bits, modelled by `% 2 ^ 128`.
-/

namespace SimpleBitrange

/-- The number of values of `usize` (64-bit target). -/
def USIZE : Nat := 2 ^ 64

/-- Checked `usize` addition: `none` models the overflow panic. -/
def checkedAdd (a b : Nat) : Option Nat :=
  if a + b < USIZE then some (a + b) else none

/-- Checked `usize` subtraction: `none` models the underflow panic. -/
def checkedSub (a b : Nat) : Option Nat :=
  if b ≤ a then some (a - b) else none

/-- `core::ops::Bound<usize>`. -/
inductive Bound where
  | included : Nat → Bound
  | excluded : Nat → Bound
  | unbounded : Bound
deriving DecidableEq

/-- `range.start_bound()` match arm of `setup_iter` (src/lib.rs:119-123). -/
def resolveStart : Bound → Option Nat
  | .included s => some s
  | .excluded s => checkedAdd s 1
  | .unbounded => some 0

/-- `range.end_bound()` match arm of `setup_iter` (src/lib.rs:124-128);
`Excluded(end) => *end - 1` is a checked `usize` subtraction. -/
def resolveEnd : Bound → Option Nat
  | .included e => some e
  | .excluded e => checkedSub e 1
  | .unbounded => some (8 * 8 - 1)

/-- `setup_iter` (src/lib.rs:115-136). Returns
`(start_bit, total_bits, start_byte, end_byte)`; `none` models a panic
in the `usize` arithmetic. -/
def setup_iter (input_len : Nat) (rs re : Bound) : Option (Nat × Nat × Nat × Nat) :=
  match resolveStart rs with
  | none => none
  | some start_bit =>
    match resolveEnd re with
    | none => none
    | some end_bit =>
      match checkedSub end_bit start_bit with
      | none => none
      | some d =>
        match checkedAdd d 1 with
        | none => none
        | some total_bits =>
          let start_byte := start_bit / 8
          let end_byte := min (end_bit / 8) input_len
          some (start_bit - start_byte * 8, total_bits, start_byte, end_byte)

/-- `read_u128_le` (src/lib.rs:209-215):
`input.rev().fold(0, |acc, x| (acc << 8) | *x as u128)` on a `u128`
accumulator (the `<< 8` silently drops bits past position 127). -/
def read_u128_le (input : List Nat) : Nat :=
  input.reverse.foldl (fun acc x => ((acc <<< 8) % 2 ^ 128) ||| x) 0

/-- `bit_range_read_le_iter_impl` (src/lib.rs:141-157). The guard
`total_bits < 128` models the debug-mode panic of the `u128` shift
`1 << total_bits` when the shift amount is out of range. -/
def bit_range_read_le_iter_impl (input : List Nat) (rs re : Bound) : Option Nat :=
  match setup_iter input.length rs re with
  | none => none
  | some (start_bit, total_bits, start_byte, end_byte) =>
    if total_bits < 128 then
      let iter := (input.drop start_byte).take (end_byte + 1)
      let mask := (1 <<< total_bits) - 1
      let output := read_u128_le iter
      let output := output >>> start_bit
      let output := output &&& mask
      some (output % 2 ^ 64)
    else none

/-- `<&[u8] as BitRangeRead<u64>>::range_read_le` (src/lib.rs:74-77). -/
def range_read_le (input : List Nat) (rs re : Bound) : Option Nat :=
  bit_range_read_le_iter_impl input rs re

/-- `<&[u8] as BitRangeRead<u64>>::range_read_be` (src/lib.rs:81-84):
the same implementation over `self.iter().rev()`. -/
def range_read_be (input : List Nat) (rs re : Bound) : Option Nat :=
  bit_range_read_le_iter_impl input.reverse rs re

/-- `u128::to_be_bytes` (big-endian: index 0 is the most significant byte). -/
def u128_to_be_bytes (v : Nat) : List Nat :=
  (List.range 16).map (fun i => v / 2 ^ (8 * (15 - i)) % 256)

/-- `write_value_le` (src/lib.rs:217-228):
`value.to_be_bytes().iter().rev().zip(output).for_each(|(i, o)| *o = *i)`.
The zip stops at the shorter side, so at most 16 bytes of `output` are
overwritten; the rest of `output` keeps its old contents. -/
def write_value_le (output : List Nat) (value : Nat) : List Nat :=
  List.zipWith (fun i _ => i) (u128_to_be_bytes value).reverse output ++ output.drop 16

/-- `write_le_compound` (src/lib.rs:161-182). The `val` parameter has
Rust type `u64`, hence the `% 2 ^ 64` at its use site; the guard
`total_bits < 128` models the `u128` shift-overflow panic. The returned
list is the buffer after the `iter_mut().skip(start_byte).take(end_byte + 1)`
window has been overwritten. -/
def write_le_compound (output : List Nat) (val : Nat) (rs re : Bound) : Option (List Nat) :=
  match setup_iter output.length rs re with
  | none => none
  | some (start_bit, total_bits, start_byte, end_byte) =>
    if total_bits < 128 then
      let span := (output.drop start_byte).take (end_byte + 1)
      let work_value := read_u128_le span
      let mask := (((1 <<< total_bits) - 1) <<< start_bit) % 2 ^ 128
      let val2 := (((val % 2 ^ 64) <<< start_bit) % 2 ^ 128) &&& mask
      let work_value := work_value &&& ((2 ^ 128 - 1) ^^^ mask)
      let work_value := work_value ||| val2
      some (output.take start_byte ++ write_value_le span work_value
        ++ output.drop (start_byte + span.length))
    else none

/-- `write_be_compound` (src/lib.rs:186-207): identical arithmetic, but
both the read iterator and the write iterator are `.rev()`, i.e. the
window lives in the reversed buffer and the mutation happens through the
reversed view. -/
def write_be_compound (output : List Nat) (val : Nat) (rs re : Bound) : Option (List Nat) :=
  match setup_iter output.length rs re with
  | none => none
  | some (start_bit, total_bits, start_byte, end_byte) =>
    if total_bits < 128 then
      let rev := output.reverse
      let span := (rev.drop start_byte).take (end_byte + 1)
      let work_value := read_u128_le span
      let mask := (((1 <<< total_bits) - 1) <<< start_bit) % 2 ^ 128
      let val2 := (((val % 2 ^ 64) <<< start_bit) % 2 ^ 128) &&& mask
      let work_value := work_value &&& ((2 ^ 128 - 1) ^^^ mask)
      let work_value := work_value ||| val2
      some ((rev.take start_byte ++ write_value_le span work_value
        ++ rev.drop (start_byte + span.length)).reverse)
    else none

/-- The merged accumulator computed inside `write_le_compound` /
`write_be_compound` (proof-side name for the final `work_value`). -/
def mergedWork (B : List Nat) (v sb tb sB eB : Nat) : Nat :=
  let span := (B.drop sB).take (eB + 1)
  let mask := (((1 <<< tb) - 1) <<< sb) % 2 ^ 128
  (read_u128_le span &&& ((2 ^ 128 - 1) ^^^ mask)) |||
    ((((v % 2 ^ 64) <<< sb) % 2 ^ 128) &&& mask)

/-- The `u8` element invariant of a byte buffer. -/
def ByteOk (l : List Nat) : Prop := ∀ b ∈ l, b < 256

instance (l : List Nat) : Decidable (ByteOk l) := List.decidableBAll _ l

/-- Little-endian integer value of a byte list: byte `i` contributes at
bit offset `8 * i` (the value `V` of the specification). -/
def leVal : List Nat → Nat
  | [] => 0
  | b :: t => b + 256 * leVal t

/-! ## Basic facts about byte lists and their little-endian value -/

theorem byteOk_of_sub {l l' : List Nat} (h : ByteOk l) (hsub : ∀ b ∈ l', b ∈ l) :
    ByteOk l' :=
  fun b hb => h b (hsub b hb)

theorem byteOk_take {l : List Nat} (h : ByteOk l) (n : Nat) : ByteOk (l.take n) :=
  byteOk_of_sub h (fun _ hb => List.mem_of_mem_take hb)

theorem byteOk_drop {l : List Nat} (h : ByteOk l) (n : Nat) : ByteOk (l.drop n) :=
  byteOk_of_sub h (fun _ hb => List.mem_of_mem_drop hb)

theorem byteOk_reverse {l : List Nat} (h : ByteOk l) : ByteOk l.reverse :=
  byteOk_of_sub h (fun _ hb => List.mem_reverse.mp hb)

theorem getD_lt_256 {l : List Nat} (h : ByteOk l) (j : Nat) : l.getD j 0 < 256 := by
  rcases Nat.lt_or_ge j l.length with hj | hj
  · rw [List.getD_eq_getElem?_getD, List.getElem?_eq_getElem hj]
    exact h _ (List.getElem_mem hj)
  · rw [List.getD_eq_getElem?_getD, List.getElem?_eq_none hj]
    norm_num

theorem leVal_lt {l : List Nat} (h : ByteOk l) : leVal l < 2 ^ (8 * l.length) := by
  induction l with
  | nil => simp [leVal]
  | cons b t ih =>
    have hb : b < 256 := h b (List.mem_cons_self _ _)
    have ht := ih (byteOk_of_sub h (fun _ hb => List.mem_cons_of_mem _ hb))
    have hp : 2 ^ (8 * (b :: t).length) = 2 ^ (8 * t.length) * 256 := by
      simp only [List.length_cons, Nat.mul_add, pow_add]
      norm_num
    simp only [leVal]
    omega

theorem testBit_leVal {l : List Nat} (h : ByteOk l) (n : Nat) :
    (leVal l).testBit n = (l.getD (n / 8) 0).testBit (n % 8) := by
  induction l generalizing n with
  | nil => simp [leVal]
  | cons b t ih =>
    have hb : b < 256 := h b (List.mem_cons_self _ _)
    have ht := byteOk_of_sub h (fun x hx => List.mem_cons_of_mem _ hx)
    have hkey := Nat.testBit_mul_pow_two_add (leVal t)
      (show b < 2 ^ 8 by norm_num at hb ⊢; omega) n
    have hcomm : leVal (b :: t) = 2 ^ 8 * leVal t + b := by
      simp only [leVal]; ring
    rw [hcomm, hkey]
    by_cases hn : n < 8
    · rw [if_pos hn, Nat.div_eq_of_lt hn, Nat.mod_eq_of_lt hn]
      simp
    · rw [if_neg hn, ih ht (n - 8)]
      have h1 : n / 8 = (n - 8) / 8 + 1 := by omega
      have h2 : n % 8 = (n - 8) % 8 := by omega
      rw [h1, h2, List.getD_cons_succ]

theorem leVal_inj {l1 l2 : List Nat} (h1 : ByteOk l1) (h2 : ByteOk l2)
    (hl : l1.length = l2.length) (he : leVal l1 = leVal l2) : l1 = l2 := by
  induction l1 generalizing l2 with
  | nil => cases l2 with
    | nil => rfl
    | cons b t => simp at hl
  | cons b1 t1 ih =>
    cases l2 with
    | nil => simp at hl
    | cons b2 t2 =>
      have hb1 : b1 < 256 := h1 b1 (List.mem_cons_self _ _)
      have hb2 : b2 < 256 := h2 b2 (List.mem_cons_self _ _)
      simp only [leVal] at he
      have hbe : b1 = b2 ∧ leVal t1 = leVal t2 := by omega
      have := ih (byteOk_of_sub h1 (fun x hx => List.mem_cons_of_mem _ hx))
        (byteOk_of_sub h2 (fun x hx => List.mem_cons_of_mem _ hx))
        (by simpa using hl) hbe.2
      rw [hbe.1, this]

/-- A byte has no bits at position 8 or above. -/
theorem testBit_byte_high {b i : Nat} (hb : b < 256) (hi : 8 ≤ i) : b.testBit i = false := by
  refine Nat.testBit_lt_two_pow (Nat.lt_of_lt_of_le ?_ (Nat.pow_le_pow_right (by norm_num) hi))
  norm_num
  omega

/-- Folding `(acc << 8) | byte` over the reversed list computes the
little-endian value, truncated to 128 bits. -/
theorem mod_shift_lor (x b : Nat) (hb : b < 256) :
    ((x <<< 8) % 2 ^ 128) ||| b = (b + 256 * x) % 2 ^ 128 := by
  apply Nat.eq_of_testBit_eq
  intro i
  have hx : b + 256 * x = 2 ^ 8 * x + b := by ring
  rw [hx, Nat.testBit_or, Nat.testBit_mod_two_pow, Nat.testBit_mod_two_pow,
    Nat.testBit_mul_pow_two_add x (show b < 2 ^ 8 by norm_num; omega) i, Nat.testBit_shiftLeft]
  by_cases h128 : i < 128
  · by_cases h8 : i < 8
    · simp [h128, h8, show ¬ (8 ≤ i) by omega]
    · have hbi : b.testBit i = false := testBit_byte_high hb (by omega)
      simp [h128, h8, show 8 ≤ i by omega, hbi]
  · have hbi : b.testBit i = false := testBit_byte_high hb (by omega)
    simp [h128, hbi]

theorem read_u128_le_eq {l : List Nat} (h : ByteOk l) :
    read_u128_le l = leVal l % 2 ^ 128 := by
  induction l with
  | nil => simp [read_u128_le, leVal]
  | cons b t ih =>
    have hb : b < 256 := h b (List.mem_cons_self _ _)
    have ht := byteOk_of_sub h (fun x hx => List.mem_cons_of_mem _ hx)
    have hstep : read_u128_le (b :: t) = ((read_u128_le t <<< 8) % 2 ^ 128) ||| b := by
      simp [read_u128_le, List.reverse_cons]
    rw [hstep, ih ht, leVal]
    rw [Nat.shiftLeft_eq, Nat.mod_mul_mod, ← Nat.shiftLeft_eq]
    exact mod_shift_lor _ _ hb

/-! ## Indexing helpers -/

theorem getD_drop {l : List Nat} (a i : Nat) : (l.drop a).getD i 0 = l.getD (a + i) 0 := by
  rw [List.getD_eq_getElem?_getD, List.getD_eq_getElem?_getD, List.getElem?_drop]

theorem getD_drop_take {l : List Nat} (a n i : Nat) :
    ((l.drop a).take n).getD i 0 = if i < n then l.getD (a + i) 0 else 0 := by
  by_cases hi : i < n
  · rw [if_pos hi, List.getD_eq_getElem?_getD, List.getElem?_take_of_lt hi,
      ← List.getD_eq_getElem?_getD, getD_drop]
  · rw [if_neg hi, List.getD_eq_getElem?_getD, List.getElem?_eq_none]
    · rfl
    · calc ((l.drop a).take n).length ≤ n := by
            rw [List.length_take]; omega
        _ ≤ i := by omega

/-! ## The range resolver -/

theorem setup_iter_eq (len : Nat) {s e : Nat} {rs re : Bound}
    (hs : resolveStart rs = some s) (he : resolveEnd re = some e)
    (hse : s ≤ e) (hcap : e - s + 1 < USIZE) :
    setup_iter len rs re = some (s % 8, e - s + 1, s / 8, min (e / 8) len) := by
  have h1 : checkedSub e s = some (e - s) := by simp [checkedSub, hse]
  have h2 : checkedAdd (e - s) 1 = some (e - s + 1) := by simp [checkedAdd, hcap]
  simp only [setup_iter, hs, he, h1, h2, Option.some.injEq, Prod.mk.injEq]
  exact ⟨by omega, trivial⟩

theorem setup_iter_inv {len sb tb sB eB : Nat} {rs re : Bound}
    (h : setup_iter len rs re = some (sb, tb, sB, eB)) :
    ∃ s e, resolveStart rs = some s ∧ resolveEnd re = some e ∧ s ≤ e ∧
      tb = e - s + 1 ∧ tb < USIZE ∧ sb = s % 8 ∧ sB = s / 8 ∧ eB = min (e / 8) len := by
  unfold setup_iter at h
  cases hs : resolveStart rs with
  | none => simp [hs] at h
  | some s =>
    simp only [hs] at h
    cases he : resolveEnd re with
    | none => simp [he] at h
    | some e =>
      simp only [he] at h
      cases hd : checkedSub e s with
      | none => simp [hd] at h
      | some d =>
        simp only [hd] at h
        cases ht : checkedAdd d 1 with
        | none => simp [ht] at h
        | some tb' =>
          simp only [ht, Option.some.injEq, Prod.mk.injEq] at h
          obtain ⟨h1, h2, h3, h4⟩ := h
          unfold checkedSub at hd
          unfold checkedAdd at ht
          split at hd
          · split at ht
            · simp only [Option.some.injEq] at hd ht
              refine ⟨s, e, rfl, rfl, by assumption, by omega, by omega, by omega, by omega, by omega⟩
            · exact absurd ht (by simp)
          · exact absurd hd (by simp)

/-! ## The read engine -/

theorem read_impl_some {B : List Nat} {rs re : Bound} {sb tb sB eB : Nat}
    (h : setup_iter B.length rs re = some (sb, tb, sB, eB)) (htb : tb < 128) :
    bit_range_read_le_iter_impl B rs re =
      some ((read_u128_le ((B.drop sB).take (eB + 1)) >>> sb &&& ((1 <<< tb) - 1)) % 2 ^ 64) := by
  unfold bit_range_read_le_iter_impl
  simp only [h]
  rw [if_pos htb]

theorem read_impl_none {B : List Nat} {rs re : Bound} {sb tb sB eB : Nat}
    (h : setup_iter B.length rs re = some (sb, tb, sB, eB)) (htb : ¬ tb < 128) :
    bit_range_read_le_iter_impl B rs re = none := by
  unfold bit_range_read_le_iter_impl
  simp only [h]
  rw [if_neg htb]

theorem read_impl_of_setup_none {B : List Nat} {rs re : Bound}
    (h : setup_iter B.length rs re = none) :
    bit_range_read_le_iter_impl B rs re = none := by
  unfold bit_range_read_le_iter_impl
  simp only [h]

/-- Main correctness of the little-endian read: for a range resolving to
absolute bits `[s, e]` of width `≤ 64` lying inside the buffer, the read
returns the field `(V >> s) & ((1 << (e-s+1)) - 1)` of the buffer's
little-endian value `V`. -/
theorem read_le_eq {B : List Nat} {rs re : Bound} {s e : Nat} (hok : ByteOk B)
    (hs : resolveStart rs = some s) (he : resolveEnd re = some e) (hse : s ≤ e)
    (hw : e - s + 1 ≤ 64) (hin : e < 8 * B.length) :
    bit_range_read_le_iter_impl B rs re =
      some ((leVal B >>> s) &&& (2 ^ (e - s + 1) - 1)) := by
  have h64 : (64 : Nat) < USIZE := by norm_num [USIZE]
  have hcap : e - s + 1 < USIZE := by omega
  have hsetup := setup_iter_eq B.length hs he hse hcap
  rw [read_impl_some hsetup (by omega)]
  have hmin : min (e / 8) B.length = e / 8 := by omega
  rw [hmin]
  have hokspan : ByteOk ((B.drop (s / 8)).take (e / 8 + 1)) :=
    byteOk_take (byteOk_drop hok _) _
  rw [read_u128_le_eq hokspan, Nat.shiftLeft_eq, one_mul]
  congr 1
  apply Nat.eq_of_testBit_eq
  intro j
  simp only [Nat.testBit_mod_two_pow, Nat.testBit_and, Nat.testBit_shiftRight,
    Nat.testBit_two_pow_sub_one]
  by_cases hj : j < e - s + 1
  · have hj64 : j < 64 := by omega
    have hj128 : s % 8 + j < 128 := by omega
    rw [testBit_leVal hokspan, testBit_leVal hok, getD_drop_take]
    have hc : (s % 8 + j) / 8 < e / 8 + 1 := by omega
    rw [if_pos hc]
    have e1 : s / 8 + (s % 8 + j) / 8 = (s + j) / 8 := by omega
    have e2 : (s % 8 + j) % 8 = (s + j) % 8 := by omega
    rw [e1, e2]
    simp [hj64, hj128, hj]
  · simp [hj]

/-! ## The write engine: byte-level behaviour -/

theorem length_u128_to_be_bytes (v : Nat) : (u128_to_be_bytes v).length = 16 := by
  simp [u128_to_be_bytes]

theorem getD_be_bytes_reverse (v i : Nat) (hi : i < 16) :
    ((u128_to_be_bytes v).reverse).getD i 0 = v / 2 ^ (8 * i) % 256 := by
  rw [List.getD_eq_getElem?_getD,
    List.getElem?_reverse (by rw [length_u128_to_be_bytes]; omega)]
  rw [length_u128_to_be_bytes]
  unfold u128_to_be_bytes
  rw [List.getElem?_map, List.getElem?_range (by omega)]
  simp only [Option.map_some', Option.getD_some]
  have h15 : 15 - (16 - 1 - i) = i := by omega
  rw [h15]

theorem length_write_value_le (l : List Nat) (v : Nat) :
    (write_value_le l v).length = l.length := by
  simp only [write_value_le, List.length_append, List.length_zipWith,
    List.length_reverse, length_u128_to_be_bytes, List.length_drop]
  omega

theorem getD_write_value_le (l : List Nat) (v i : Nat) :
    (write_value_le l v).getD i 0 =
      if i < min 16 l.length then v / 2 ^ (8 * i) % 256 else l.getD i 0 := by
  have hzlen : (List.zipWith (fun a _ => a) (u128_to_be_bytes v).reverse l).length
      = min 16 l.length := by
    rw [List.length_zipWith, List.length_reverse, length_u128_to_be_bytes]
  by_cases hi : i < min 16 l.length
  · rw [if_pos hi, write_value_le, List.getD_eq_getElem?_getD,
      List.getElem?_append_left (by omega), List.getElem?_zipWith]
    have h1 : ((u128_to_be_bytes v).reverse)[i]? = some (v / 2 ^ (8 * i) % 256) := by
      have hgd := getD_be_bytes_reverse v i (by omega)
      rw [List.getD_eq_getElem?_getD] at hgd
      cases h : ((u128_to_be_bytes v).reverse)[i]? with
      | none =>
        rw [List.getElem?_eq_none_iff, List.length_reverse, length_u128_to_be_bytes] at h
        omega
      | some x => rw [h] at hgd; simp at hgd; rw [hgd]
    rw [h1, List.getElem?_eq_getElem (show i < l.length by omega)]
    rfl
  · rw [if_neg hi, write_value_le, List.getD_eq_getElem?_getD,
      List.getElem?_append_right (by omega), hzlen, List.getElem?_drop]
    by_cases hl : l.length ≤ 16
    · rw [List.getElem?_eq_none (by omega),
        List.getD_eq_getElem?_getD, List.getElem?_eq_none (by omega)]
    · have hidx : 16 + (i - min 16 l.length) = i := by omega
      rw [hidx, ← List.getD_eq_getElem?_getD]

theorem write_le_impl_some {B : List Nat} {v : Nat} {rs re : Bound} {sb tb sB eB : Nat}
    (h : setup_iter B.length rs re = some (sb, tb, sB, eB)) (htb : tb < 128) :
    write_le_compound B v rs re =
      some (B.take sB ++
        write_value_le ((B.drop sB).take (eB + 1)) (mergedWork B v sb tb sB eB) ++
        B.drop (sB + ((B.drop sB).take (eB + 1)).length)) := by
  unfold write_le_compound mergedWork
  simp only [h]
  rw [if_pos htb]

theorem write_le_impl_none {B : List Nat} {v : Nat} {rs re : Bound} {sb tb sB eB : Nat}
    (h : setup_iter B.length rs re = some (sb, tb, sB, eB)) (htb : ¬ tb < 128) :
    write_le_compound B v rs re = none := by
  unfold write_le_compound
  simp only [h]
  rw [if_neg htb]

theorem write_le_of_setup_none {B : List Nat} {v : Nat} {rs re : Bound}
    (h : setup_iter B.length rs re = none) :
    write_le_compound B v rs re = none := by
  unfold write_le_compound
  simp only [h]

/-- Byte-level behaviour of `write_le_compound`: bytes in the window
`[start_byte, start_byte + min (end_byte + 1) (len - start_byte))` that
are also within the 16-byte accumulator come from the merged work value;
all other bytes keep their old contents. -/
theorem write_le_byte {B : List Nat} {v : Nat} {rs re : Bound} {sb tb sB eB : Nat}
    (h : setup_iter B.length rs re = some (sb, tb, sB, eB)) (htb : tb < 128)
    (hsB : sB ≤ B.length) :
    ∃ B2, write_le_compound B v rs re = some B2 ∧ B2.length = B.length ∧
      ∀ j, B2.getD j 0 =
        if sB ≤ j ∧ j - sB < min (eB + 1) (B.length - sB) ∧ j - sB < 16 then
          mergedWork B v sb tb sB eB / 2 ^ (8 * (j - sB)) % 256
        else B.getD j 0 := by
  have hL : ((B.drop sB).take (eB + 1)).length = min (eB + 1) (B.length - sB) := by
    rw [List.length_take, List.length_drop]
  have hwl := length_write_value_le ((B.drop sB).take (eB + 1)) (mergedWork B v sb tb sB eB)
  have hlenA : (B.take sB).length = sB := by rw [List.length_take]; omega
  refine ⟨_, write_le_impl_some h htb, ?_, ?_⟩
  · simp only [List.length_append, hwl, hL, hlenA, List.length_drop]
    omega
  · intro j
    rw [List.getD_eq_getElem?_getD, List.append_assoc]
    by_cases hj1 : j < sB
    · rw [List.getElem?_append_left (by rw [hlenA]; omega),
        List.getElem?_take_of_lt hj1, ← List.getD_eq_getElem?_getD,
        if_neg (by omega)]
    · rw [List.getElem?_append_right (by rw [hlenA]; omega), hlenA]
      by_cases hj2 : j - sB < min (eB + 1) (B.length - sB)
      · rw [List.getElem?_append_left (by rw [hwl, hL]; omega),
          ← List.getD_eq_getElem?_getD, getD_write_value_le, hL]
        by_cases hj3 : j - sB < 16
        · rw [if_pos (by omega), if_pos ⟨by omega, hj2, hj3⟩]
        · rw [if_neg (by omega), getD_drop_take, if_pos (by omega),
            if_neg (by omega)]
          congr 1
          omega
      · rw [List.getElem?_append_right (by rw [hwl, hL]; omega), hwl, hL,
          List.getElem?_drop, ← List.getD_eq_getElem?_getD]
        have hidx : sB + min (eB + 1) (B.length - sB)
            + (j - sB - min (eB + 1) (B.length - sB)) = j := by omega
        rw [hidx, if_neg (by omega)]

/-- Bit-level description of the merged work value: inside the mask the
bits come from the (64-bit) value shifted up by `start_bit`, outside it
from the byte span read from the buffer. -/
theorem testBit_mergedWork {B : List Nat} {v sb tb sB eB p : Nat} (hok : ByteOk B)
    (hp : p < 128) :
    (mergedWork B v sb tb sB eB).testBit p =
      if sb ≤ p ∧ p - sb < tb then (v % 2 ^ 64).testBit (p - sb)
      else (leVal ((B.drop sB).take (eB + 1))).testBit p := by
  have hokspan : ByteOk ((B.drop sB).take (eB + 1)) := byteOk_take (byteOk_drop hok _) _
  simp only [mergedWork]
  rw [read_u128_le_eq hokspan]
  have h2t : (1 <<< tb : Nat) = 2 ^ tb := by rw [Nat.shiftLeft_eq, one_mul]
  rw [h2t]
  simp only [Nat.testBit_or, Nat.testBit_and, Nat.testBit_xor, Nat.testBit_mod_two_pow,
    Nat.testBit_shiftLeft, Nat.testBit_two_pow_sub_one, hp, decide_True, Bool.true_and,
    Bool.true_xor]
  by_cases h1 : sb ≤ p
  · by_cases h2 : p - sb < tb
    · rw [if_pos ⟨h1, h2⟩]
      simp [h1, h2, ge_iff_le]
    · rw [if_neg (by omega)]
      simp [h1, h2, ge_iff_le]
  · rw [if_neg (by omega)]
    simp [h1, show ¬ (sb ≤ p) from h1, ge_iff_le]

theorem byteOk_of_getD {l : List Nat} (h : ∀ j, j < l.length → l.getD j 0 < 256) :
    ByteOk l := by
  intro b hb
  obtain ⟨i, hi, rfl⟩ := List.getElem_of_mem hb
  have hv := h i hi
  rw [List.getD_eq_getElem?_getD, List.getElem?_eq_getElem hi] at hv
  simpa using hv

/-- Bit `k` of byte `i` of a value is bit `8 * i + k` of the value. -/
theorem testBit_read_byte (x i k : Nat) (hk : k < 8) :
    (x / 2 ^ (8 * i) % 256).testBit k = x.testBit (8 * i + k) := by
  rw [show (256 : Nat) = 2 ^ 8 by norm_num, Nat.testBit_mod_two_pow,
    ← Nat.shiftRight_eq_div_pow, Nat.testBit_shiftRight]
  simp [hk]

/-- Bit-level behaviour of a little-endian write for an in-bounds range
of width at most 64: bits `[s, e]` of the new buffer value come from the
written value, every other bit of the buffer is unchanged. -/
theorem write_le_leVal {B : List Nat} {v : Nat} {rs re : Bound} {s e : Nat} (hok : ByteOk B)
    (hs : resolveStart rs = some s) (he : resolveEnd re = some e) (hse : s ≤ e)
    (hw : e - s + 1 ≤ 64) (hin : e < 8 * B.length) :
    ∃ B2, write_le_compound B v rs re = some B2 ∧ B2.length = B.length ∧ ByteOk B2 ∧
      ∀ q, q < 8 * B.length →
        (leVal B2).testBit q =
          if s ≤ q ∧ q ≤ e then (v % 2 ^ 64).testBit (q - s)
          else (leVal B).testBit q := by
  have h64 : (64 : Nat) < USIZE := by norm_num [USIZE]
  have hcap : e - s + 1 < USIZE := by omega
  have hsetup := setup_iter_eq B.length hs he hse hcap
  have hmin : min (e / 8) B.length = e / 8 := by omega
  rw [hmin] at hsetup
  have hsB : s / 8 ≤ B.length := by omega
  obtain ⟨B2, hw2, hlen, hbyte⟩ := write_le_byte (v := v) hsetup (by omega) hsB
  have hok2 : ByteOk B2 := by
    apply byteOk_of_getD
    intro j hj
    rw [hbyte j]
    split
    · exact Nat.mod_lt _ (by norm_num)
    · exact getD_lt_256 hok j
  refine ⟨B2, hw2, hlen, hok2, ?_⟩
  intro q hq
  rw [testBit_leVal hok2 q, hbyte (q / 8)]
  by_cases hc : s / 8 ≤ q / 8 ∧ q / 8 - s / 8 < min (e / 8 + 1) (B.length - s / 8) ∧
      q / 8 - s / 8 < 16
  · rw [if_pos hc]
    rw [testBit_read_byte _ _ _ (Nat.mod_lt _ (by norm_num))]
    have hp128 : 8 * (q / 8 - s / 8) + q % 8 < 128 := by omega
    rw [testBit_mergedWork hok hp128]
    have hpq : 8 * (q / 8 - s / 8) + q % 8 = q - 8 * (s / 8) := by omega
    by_cases hfield : s ≤ q ∧ q ≤ e
    · rw [if_pos (by omega), if_pos hfield]
      congr 1
      omega
    · rw [if_neg (by omega), if_neg hfield]
      have hokspan : ByteOk ((B.drop (s / 8)).take (e / 8 + 1)) :=
        byteOk_take (byteOk_drop hok _) _
      rw [testBit_leVal hokspan, getD_drop_take,
        if_pos (by omega), testBit_leVal hok]
      have e1 : s / 8 + (8 * (q / 8 - s / 8) + q % 8) / 8 = q / 8 := by omega
      have e2 : (8 * (q / 8 - s / 8) + q % 8) % 8 = q % 8 := by omega
      rw [e1, e2]
  · rw [if_neg hc, if_neg (by omega), testBit_leVal hok]

/-! ## Big-endian operations as little-endian operations on the reversed buffer -/

theorem range_read_be_eq (B : List Nat) (rs re : Bound) :
    range_read_be B rs re = range_read_le B.reverse rs re := rfl

theorem write_be_eq (B : List Nat) (v : Nat) (rs re : Bound) :
    write_be_compound B v rs re = (write_le_compound B.reverse v rs re).map List.reverse := by
  unfold write_be_compound write_le_compound
  rw [List.length_reverse]
  cases h : setup_iter B.length rs re with
  | none => rfl
  | some t =>
    obtain ⟨sb, tb, sB, eB⟩ := t
    by_cases htb : tb < 128
    · simp [htb]
    · simp [htb]

/-- When the window starts at or past the end of the buffer, a write
returns the buffer unchanged. -/
theorem write_le_all {B : List Nat} {v : Nat} {rs re : Bound} {sb tb sB eB : Nat}
    (h : setup_iter B.length rs re = some (sb, tb, sB, eB)) (htb : tb < 128)
    (hsB : B.length ≤ sB) :
    write_le_compound B v rs re = some B := by
  rw [write_le_impl_some h htb]
  have hdrop : B.drop sB = [] := List.drop_eq_nil_of_le hsB
  have htake : B.take sB = B := List.take_of_length_le hsB
  rw [hdrop, htake]
  simp [write_value_le, List.drop_eq_nil_of_le hsB]

/-- Frame property of the little-endian write: bytes strictly before
`start_byte` or strictly after `end_byte` keep their values. -/
theorem frame_le {B : List Nat} {v : Nat} {rs re : Bound} {sb tb sB eB : Nat}
    (hok : ByteOk B) (hset : setup_iter B.length rs re = some (sb, tb, sB, eB))
    {B2 : List Nat} (hw2 : write_le_compound B v rs re = some B2) :
    ∀ j, j < sB ∨ eB < j → B2.getD j 0 = B.getD j 0 := by
  intro j hj
  have htb : tb < 128 := by
    by_contra h
    rw [write_le_impl_none hset h] at hw2
    exact absurd hw2 (by simp)
  obtain ⟨s, e, hs, he, hse, htbe, hcap, hsb, hsBe, heBe⟩ := setup_iter_inv hset
  by_cases hsB : sB ≤ B.length
  · obtain ⟨B2', hw2', hlen, hbyte⟩ := write_le_byte (v := v) hset htb hsB
    rw [hw2] at hw2'
    have hB2 : B2' = B2 := by injection hw2'.symm
    rw [← hB2, hbyte j]
    by_cases hc : sB ≤ j ∧ j - sB < min (eB + 1) (B.length - sB) ∧ j - sB < 16
    · rw [if_pos hc]
      rcases hj with hj | hj
      · omega
      -- the written byte lies beyond the top bit of the mask, so it keeps
      -- the value read from the span
      apply Nat.eq_of_testBit_eq
      intro k
      by_cases hk : k < 8
      · rw [testBit_read_byte _ _ _ hk, testBit_mergedWork hok (by omega)]
        rw [if_neg (by omega)]
        have hokspan : ByteOk ((B.drop sB).take (eB + 1)) :=
          byteOk_take (byteOk_drop hok _) _
        rw [testBit_leVal hokspan, getD_drop_take, if_pos (by omega)]
        have e1 : sB + (8 * (j - sB) + k) / 8 = j := by omega
        have e2 : (8 * (j - sB) + k) % 8 = k := by omega
        rw [e1, e2]
      · rw [testBit_byte_high (Nat.mod_lt _ (by norm_num)) (by omega),
          testBit_byte_high (getD_lt_256 hok j) (by omega)]
    · rw [if_neg hc]
  · rw [write_le_all hset htb (by omega)] at hw2
    have : B = B2 := by injection hw2
    rw [← this]

/-! ## Round-trip and write-then-read, little-endian core -/

theorem roundtrip_le {B : List Nat} {rs re : Bound} {s e : Nat} (hok : ByteOk B)
    (hs : resolveStart rs = some s) (he : resolveEnd re = some e) (hse : s ≤ e)
    (hw : e - s + 1 ≤ 64) (hin : e < 8 * B.length) :
    (bit_range_read_le_iter_impl B rs re).bind (fun r => write_le_compound B r rs re)
      = some B := by
  rw [read_le_eq hok hs he hse hw hin, Option.some_bind]
  obtain ⟨B2, hw2, hlen, hok2, hbits⟩ :=
    write_le_leVal (v := (leVal B >>> s) &&& (2 ^ (e - s + 1) - 1)) hok hs he hse hw hin
  rw [hw2]
  congr 1
  have hpow : (2 : Nat) ^ (e - s + 1) ≤ 2 ^ 64 := Nat.pow_le_pow_right (by norm_num) hw
  have hr : (leVal B >>> s) &&& (2 ^ (e - s + 1) - 1) < 2 ^ 64 :=
    Nat.lt_of_le_of_lt Nat.and_le_right (by omega)
  apply leVal_inj hok2 hok hlen
  apply Nat.eq_of_testBit_eq
  intro q
  by_cases hq : q < 8 * B.length
  · rw [hbits q hq]
    by_cases hfield : s ≤ q ∧ q ≤ e
    · rw [if_pos hfield, Nat.mod_eq_of_lt hr, Nat.testBit_and, Nat.testBit_shiftRight,
        Nat.testBit_two_pow_sub_one]
      have e1 : s + (q - s) = q := by omega
      rw [e1]
      simp [show q - s < e - s + 1 by omega]
    · rw [if_neg hfield]
  · have h1 : leVal B2 < 2 ^ q := Nat.lt_of_lt_of_le (leVal_lt hok2)
      (Nat.pow_le_pow_right (by norm_num) (by omega))
    have h2 : leVal B < 2 ^ q := Nat.lt_of_lt_of_le (leVal_lt hok)
      (Nat.pow_le_pow_right (by norm_num) (by omega))
    rw [Nat.testBit_lt_two_pow h1, Nat.testBit_lt_two_pow h2]

theorem write_read_le {B : List Nat} {v : Nat} {rs re : Bound} {s e : Nat} (hok : ByteOk B)
    (hs : resolveStart rs = some s) (he : resolveEnd re = some e) (hse : s ≤ e)
    (hw : e - s + 1 ≤ 64) (hin : e < 8 * B.length) (hv : v < 2 ^ 64) :
    (write_le_compound B v rs re).bind (fun B2 => bit_range_read_le_iter_impl B2 rs re)
      = some (v &&& (2 ^ (e - s + 1) - 1)) := by
  obtain ⟨B2, hw2, hlen, hok2, hbits⟩ := write_le_leVal (v := v) hok hs he hse hw hin
  rw [hw2, Option.some_bind, read_le_eq hok2 hs he hse hw (by omega)]
  congr 1
  apply Nat.eq_of_testBit_eq
  intro i
  simp only [Nat.testBit_and, Nat.testBit_shiftRight, Nat.testBit_two_pow_sub_one]
  by_cases hi : i < e - s + 1
  · have hbq := hbits (s + i) (by omega)
    rw [hbq, if_pos ⟨by omega, by omega⟩, Nat.mod_eq_of_lt hv]
    have e1 : s + i - s = i := by omega
    rw [e1]
  · simp [hi]

/-! ## The claims -/

/-- C1: for every byte buffer `B` and every bit range that resolves to
absolute start bit `s` and width `w` with `1 ≤ w ≤ 64` and
`s + w ≤ 8 * length B`, `range_read_le` returns `(V >> s) & ((1 << w) - 1)`
where `V` is the little-endian integer value of `B` (byte `i` contributes
at bit offset `8 * i`). -/
theorem C1_read_le_field (B : List Nat) (rs re : Bound) (s e w : Nat) (hok : ByteOk B)
    (hs : resolveStart rs = some s) (he : resolveEnd re = some e)
    (hwe : e + 1 = s + w) (hw1 : 1 ≤ w) (hw64 : w ≤ 64)
    (hin : s + w ≤ 8 * B.length) :
    range_read_le B rs re = some ((leVal B >>> s) &&& (2 ^ w - 1)) := by
  have hse : s ≤ e := by omega
  have hww : e - s + 1 = w := by omega
  unfold range_read_le
  rw [read_le_eq hok hs he hse (by omega) (by omega), hww]

/-- Witness for C1 at a concrete buffer and range (bits 8..24 of a 4-byte
buffer). -/
theorem C1_witness :
    range_read_le [14, 211, 241, 143] (Bound.included 8) (Bound.excluded 24)
      = some ((leVal [14, 211, 241, 143] >>> 8) &&& (2 ^ 16 - 1)) :=
  C1_read_le_field [14, 211, 241, 143] (Bound.included 8) (Bound.excluded 24) 8 23 16
    (by decide) (by decide) (by decide) (by decide) (by decide) (by decide) (by decide)

/-- C2: for every byte buffer, every range whose resolved width is between
1 and 64 and which lies within the buffer, and each directionality,
writing back the value obtained by reading leaves every byte unchanged. -/
theorem C2_roundtrip (B : List Nat) (rs re : Bound) (s e : Nat) (hok : ByteOk B)
    (hs : resolveStart rs = some s) (he : resolveEnd re = some e) (hse : s ≤ e)
    (hw : e - s + 1 ≤ 64) (hin : e < 8 * B.length) :
    (range_read_le B rs re).bind (fun r => write_le_compound B r rs re) = some B ∧
    (range_read_be B rs re).bind (fun r => write_be_compound B r rs re) = some B := by
  constructor
  · exact roundtrip_le hok hs he hse hw hin
  · have hrev := roundtrip_le (byteOk_reverse hok) hs he hse hw
      (by rw [List.length_reverse]; omega)
    show (bit_range_read_le_iter_impl B.reverse rs re).bind
      (fun r => write_be_compound B r rs re) = some B
    cases hr : bit_range_read_le_iter_impl B.reverse rs re with
    | none => rw [hr] at hrev; simp at hrev
    | some r =>
      rw [hr] at hrev
      simp only [Option.some_bind] at hrev ⊢
      rw [write_be_eq, hrev]
      simp

/-- Witness for C2: round-trip on a concrete 2-byte buffer and range
4..12, in both directionalities. -/
theorem C2_witness :
    (range_read_le [10, 20] (Bound.included 4) (Bound.excluded 12)).bind
        (fun r => write_le_compound [10, 20] r (Bound.included 4) (Bound.excluded 12))
      = some [10, 20] ∧
    (range_read_be [10, 20] (Bound.included 4) (Bound.excluded 12)).bind
        (fun r => write_be_compound [10, 20] r (Bound.included 4) (Bound.excluded 12))
      = some [10, 20] :=
  C2_roundtrip [10, 20] (Bound.included 4) (Bound.excluded 12) 4 11
    (by decide) (by decide) (by decide) (by decide) (by decide) (by decide)

/-- C3 counterexample: a read whose range resolves to `total_bits = 65 > 64`
does not fail fatally — it returns a value, so there is no FieldTooWide
assertion in the code. -/
theorem C3_counterexample :
    setup_iter 9 (Bound.included 0) (Bound.included 64) = some (0, 65, 0, 8) ∧
    range_read_le [0, 0, 0, 0, 0, 0, 0, 0, 0] (Bound.included 0) (Bound.included 64)
      = some 0 := by
  constructor
  · decide
  · decide

/-- C3 amended: there is no 64-bit width assertion.  Once the range
resolves, a read or write fails iff `total_bits ≥ 128` (the `u128` shift
overflow); in particular widths 1..64 always succeed, and widths 65..127
also succeed (with the result truncated to 64 bits). -/
theorem C3_amended (B : List Nat) (v : Nat) (rs re : Bound) (sb tb sB eB : Nat)
    (h : setup_iter B.length rs re = some (sb, tb, sB, eB)) :
    ((range_read_le B rs re).isSome ↔ tb < 128) ∧
    ((range_read_be B rs re).isSome ↔ tb < 128) ∧
    ((write_le_compound B v rs re).isSome ↔ tb < 128) ∧
    ((write_be_compound B v rs re).isSome ↔ tb < 128) := by
  have hrev : setup_iter B.reverse.length rs re = some (sb, tb, sB, eB) := by
    rw [List.length_reverse]; exact h
  refine ⟨?_, ?_, ?_, ?_⟩
  · unfold range_read_le
    by_cases htb : tb < 128
    · rw [read_impl_some h htb]; simpa using htb
    · rw [read_impl_none h htb]; simpa using htb
  · unfold range_read_be
    by_cases htb : tb < 128
    · rw [read_impl_some hrev htb]; simpa using htb
    · rw [read_impl_none hrev htb]; simpa using htb
  · by_cases htb : tb < 128
    · rw [write_le_impl_some h htb]; simpa using htb
    · rw [write_le_impl_none h htb]; simpa using htb
  · rw [write_be_eq]
    by_cases htb : tb < 128
    · rw [write_le_impl_some hrev htb]; simpa using htb
    · rw [write_le_impl_none hrev htb]; simpa using htb

/-- Witness for the amended C3 at the fully unbounded range on a 1-byte
buffer (`total_bits = 64`). -/
theorem C3_amended_witness :
    ((range_read_le [0] Bound.unbounded Bound.unbounded).isSome ↔ 64 < 128) ∧
    ((range_read_be [0] Bound.unbounded Bound.unbounded).isSome ↔ 64 < 128) ∧
    ((write_le_compound [0] 0 Bound.unbounded Bound.unbounded).isSome ↔ 64 < 128) ∧
    ((write_be_compound [0] 0 Bound.unbounded Bound.unbounded).isSome ↔ 64 < 128) :=
  C3_amended [0] 0 Bound.unbounded Bound.unbounded 0 64 0 1 (by decide)

/-- C4 counterexample: writing 0 to bit range 4..12 of a 4-byte buffer
resolves to `start_byte = 0`, `end_byte = 1`, yet it changes byte index 1,
which lies outside the half-open span `[0, 1)`. -/
theorem C4_counterexample :
    setup_iter 4 (Bound.included 4) (Bound.excluded 12) = some (4, 8, 0, 1) ∧
    write_le_compound [255, 255, 255, 255] 0 (Bound.included 4) (Bound.excluded 12)
      = some [15, 240, 255, 255] ∧
    ¬ (1 : Nat) < 1 ∧
    [15, 240, 255, 255].getD 1 0 ≠ [255, 255, 255, 255].getD 1 0 := by
  refine ⟨by decide, by decide, by decide, by decide⟩

/-- C4 amended: after a write, every byte outside the CLOSED span
`[start_byte, end_byte]` of the direction-adjusted buffer (for big-endian
the byte positions count from the far end) has the same value as before. -/
theorem C4_amended (B : List Nat) (v : Nat) (rs re : Bound) (sb tb sB eB : Nat)
    (hok : ByteOk B) (hset : setup_iter B.length rs re = some (sb, tb, sB, eB)) :
    (∀ C, write_le_compound B v rs re = some C →
      ∀ j, j < sB ∨ eB < j → C.getD j 0 = B.getD j 0) ∧
    (∀ C, write_be_compound B v rs re = some C →
      ∀ j, j < sB ∨ eB < j → C.reverse.getD j 0 = B.reverse.getD j 0) := by
  constructor
  · intro C hw2 j hj
    exact frame_le hok hset hw2 j hj
  · intro C hw2 j hj
    rw [write_be_eq] at hw2
    cases hc : write_le_compound B.reverse v rs re with
    | none => rw [hc] at hw2; exact absurd hw2 (by simp)
    | some D =>
      rw [hc] at hw2
      simp only [Option.map_some', Option.some.injEq] at hw2
      have hrev : setup_iter B.reverse.length rs re = some (sb, tb, sB, eB) := by
        rw [List.length_reverse]; exact hset
      have hfr := frame_le (byteOk_reverse hok) hrev hc j hj
      rw [← hw2, List.reverse_reverse]
      exact hfr

/-- Witness for the amended C4: byte 3 (outside the closed span [0, 1])
is unchanged by the concrete writes of the C4 counterexample, in both
directionalities. -/
theorem C4_witness :
    [15, 240, 255, 255].getD 3 0 = [255, 255, 255, 255].getD 3 0 ∧
    [255, 255, 240, 15].reverse.getD 3 0 = [255, 255, 255, 255].reverse.getD 3 0 := by
  constructor
  · exact (C4_amended [255, 255, 255, 255] 0 (Bound.included 4) (Bound.excluded 12)
      4 8 0 1 (by decide) (by decide)).1 [15, 240, 255, 255] (by decide) 3 (by decide)
  · exact (C4_amended [255, 255, 255, 255] 0 (Bound.included 4) (Bound.excluded 12)
      4 8 0 1 (by decide) (by decide)).2 [255, 255, 240, 15] (by decide) 3 (by decide)

/-- C5: for every buffer, in-bounds range of resolved width `w < 64`,
64-bit value `V` and each directionality, writing `V` and reading back
yields `V & ((1 << w) - 1)`; the write itself succeeds (high bits are
silently discarded, never rejected). -/
theorem C5_truncating_write (B : List Nat) (v : Nat) (rs re : Bound) (s e w : Nat)
    (hok : ByteOk B) (hs : resolveStart rs = some s) (he : resolveEnd re = some e)
    (hwe : e + 1 = s + w) (hw1 : 1 ≤ w) (hw64 : w < 64)
    (hin : s + w ≤ 8 * B.length) (hv : v < 2 ^ 64) :
    (write_le_compound B v rs re).bind (fun C => range_read_le C rs re)
      = some (v &&& (2 ^ w - 1)) ∧
    (write_be_compound B v rs re).bind (fun C => range_read_be C rs re)
      = some (v &&& (2 ^ w - 1)) := by
  have hse : s ≤ e := by omega
  have hww : e - s + 1 = w := by omega
  constructor
  · have hle := write_read_le hok hs he hse (by omega) (by omega) hv
    rw [hww] at hle
    exact hle
  · have hbe := write_read_le (byteOk_reverse hok) hs he hse (by omega)
      (by rw [List.length_reverse]; omega) hv
    rw [hww] at hbe
    cases hc : write_le_compound B.reverse v rs re with
    | none => rw [hc] at hbe; simp at hbe
    | some C =>
      rw [hc, Option.some_bind] at hbe
      rw [write_be_eq, hc]
      simp only [Option.map_some', Option.some_bind]
      have hre : range_read_be C.reverse rs re = bit_range_read_le_iter_impl C rs re := by
        unfold range_read_be
        rw [List.reverse_reverse]
      rw [hre]
      exact hbe

/-- Witness for C5: writing 511 into the 8-bit field 4..12 of a 2-byte
buffer reads back as `511 & 255`, in both directionalities. -/
theorem C5_witness :
    (write_le_compound [255, 255] 511 (Bound.included 4) (Bound.excluded 12)).bind
        (fun C => range_read_le C (Bound.included 4) (Bound.excluded 12))
      = some (511 &&& (2 ^ 8 - 1)) ∧
    (write_be_compound [255, 255] 511 (Bound.included 4) (Bound.excluded 12)).bind
        (fun C => range_read_be C (Bound.included 4) (Bound.excluded 12))
      = some (511 &&& (2 ^ 8 - 1)) :=
  C5_truncating_write [255, 255] 511 (Bound.included 4) (Bound.excluded 12) 4 11 8
    (by decide) (by decide) (by decide) (by decide) (by decide) (by decide) (by decide)
    (by decide)

/-- C6: for every buffer and every range, the big-endian read of the
byte-reversed buffer equals the little-endian read of the original: the
big-endian read is exactly the little-endian read applied to the reversed
byte traversal. -/
theorem C6_endian_symmetry (B : List Nat) (rs re : Bound) :
    range_read_be B.reverse rs re = range_read_le B rs re := by
  unfold range_read_be range_read_le
  rw [List.reverse_reverse]

/-- C7: the range resolver maps an inclusive start bound `s` to absolute
start `s`, an exclusive one to `s + 1`, an unbounded one to `0`; an
inclusive end bound `e` to absolute end `e`, an exclusive one to `e - 1`,
an unbounded one to `63`; and produces `total_bits = e - s + 1`,
`start_byte = s / 8`, `end_byte = min (e / 8) len`, `start_bit = s % 8`
(stated for the inputs on which its checked `usize` arithmetic is
defined). -/
theorem C7_resolver (len : Nat) (rs re : Bound) (s e : Nat)
    (hs : s = (match rs with | .included a => a | .excluded a => a + 1 | .unbounded => 0))
    (hsa : (match rs with | .excluded a => a + 1 < USIZE | _ => True))
    (he : e = (match re with | .included b => b | .excluded b => b - 1 | .unbounded => 63))
    (heb : (match re with | .excluded b => 1 ≤ b | _ => True))
    (hse : s ≤ e) (hcap : e - s + 1 < USIZE) :
    setup_iter len rs re = some (s % 8, e - s + 1, s / 8, min (e / 8) len) := by
  apply setup_iter_eq len _ _ hse hcap
  · cases rs with
    | included a => simp only [] at hs; subst hs; rfl
    | excluded a =>
      simp only [] at hs hsa
      subst hs
      simp [resolveStart, checkedAdd, hsa]
    | unbounded => simp only [] at hs; subst hs; rfl
  · cases re with
    | included b => simp only [] at he; subst he; rfl
    | excluded b =>
      simp only [] at he heb
      subst he
      simp [resolveEnd, checkedSub, heb]
    | unbounded => simp only [] at he; subst he; rfl

/-- Witness for C7 on the range with exclusive start 2 and exclusive end
10 over a 4-byte buffer. -/
theorem C7_witness :
    setup_iter 4 (Bound.excluded 2) (Bound.excluded 10)
      = some (3 % 8, 9 - 3 + 1, 3 / 8, min (9 / 8) 4) :=
  C7_resolver 4 (Bound.excluded 2) (Bound.excluded 10) 3 9 rfl (by decide) rfl
    (by decide) (by decide) (by decide)

/-- C8 counterexample: two 8-byte buffers that agree on the claimed span
`[start_byte, end_byte) = [0, 3)` (the first `end_byte - start_byte = 3`
bytes) but differ at byte 3 give different reads for `0..32`: the
operation does not assemble from that span only. -/
theorem C8_counterexample :
    setup_iter 8 (Bound.included 0) (Bound.excluded 32) = some (0, 32, 0, 3) ∧
    ([1, 2, 3, 4, 5, 6, 7, 8] : List Nat).take (3 - 0)
      = ([1, 2, 3, 0, 5, 6, 7, 8] : List Nat).take (3 - 0) ∧
    range_read_le [1, 2, 3, 4, 5, 6, 7, 8] (Bound.included 0) (Bound.excluded 32)
      ≠ range_read_le [1, 2, 3, 0, 5, 6, 7, 8] (Bound.included 0) (Bound.excluded 32) := by
  refine ⟨by decide, by decide, by decide⟩

/-- C8 amended: the byte span actually used is
`skip(start_byte).take(end_byte + 1)`, i.e. the bytes
`[start_byte, start_byte + min (end_byte + 1) (len - start_byte))` of the
direction-adjusted buffer: reads depend only on that span, and writes
change no byte outside it. -/
theorem C8_amended (rs re : Bound) (sb tb sB eB : Nat) :
    (∀ B C : List Nat, setup_iter B.length rs re = some (sb, tb, sB, eB) →
      B.length = C.length →
      (B.drop sB).take (eB + 1) = (C.drop sB).take (eB + 1) →
      range_read_le B rs re = range_read_le C rs re) ∧
    (∀ (B C : List Nat) (v : Nat), setup_iter B.length rs re = some (sb, tb, sB, eB) →
      write_le_compound B v rs re = some C →
      ∀ j, j < sB ∨ sB + min (eB + 1) (B.length - sB) ≤ j →
        C.getD j 0 = B.getD j 0) := by
  constructor
  · intro B C hset hlen hspan
    have hset2 : setup_iter C.length rs re = some (sb, tb, sB, eB) := by
      rw [← hlen]; exact hset
    unfold range_read_le
    by_cases htb : tb < 128
    · rw [read_impl_some hset htb, read_impl_some hset2 htb, hspan]
    · rw [read_impl_none hset htb, read_impl_none hset2 htb]
  · intro B C v hset hw2 j hj
    have htb : tb < 128 := by
      by_contra hcon
      rw [write_le_impl_none hset hcon] at hw2
      exact absurd hw2 (by simp)
    by_cases hsB : sB ≤ B.length
    · obtain ⟨C', hw2', hlen, hbyte⟩ := write_le_byte (v := v) hset htb hsB
      rw [hw2] at hw2'
      have hC : C' = C := by injection hw2'.symm
      rcases hj with hj | hj
      · rw [← hC, hbyte j, if_neg (by omega)]
      · rw [← hC, hbyte j, if_neg (by omega)]
    · rw [write_le_all hset htb (by omega)] at hw2
      have hbb : B = C := by injection hw2
      rw [← hbb]

/-- Witness for the amended C8: reads agree on two buffers equal on the
actual span, and a concrete write leaves byte 4 (outside the span)
unchanged. -/
theorem C8_witness :
    range_read_le [10, 20, 30, 40, 99] (Bound.included 4) (Bound.excluded 12)
      = range_read_le [10, 20, 30, 40, 77] (Bound.included 4) (Bound.excluded 12) ∧
    [10, 16, 30, 40, 99].getD 4 0 = [10, 20, 30, 40, 99].getD 4 0 := by
  constructor
  · exact (C8_amended (Bound.included 4) (Bound.excluded 12) 4 8 0 1).1
      [10, 20, 30, 40, 99] [10, 20, 30, 40, 77] (by decide) (by decide) (by decide)
  · exact (C8_amended (Bound.included 4) (Bound.excluded 12) 4 8 0 1).2
      [10, 20, 30, 40, 99] [10, 16, 30, 40, 99] 0 (by decide) (by decide) 4 (by decide)

/-- C9: a range with an exclusive end bound 0, or an exclusive end bound
`e ≤` the resolved start bit, makes the resolver's unsigned subtractions
underflow: the call panics (returns no value) and the buffer is never
mutated. -/
theorem C9_underflow (B : List Nat) (v : Nat) (rs re : Bound)
    (h : re = Bound.excluded 0 ∨
      ∃ e0 s, re = Bound.excluded e0 ∧ 1 ≤ e0 ∧ resolveStart rs = some s ∧ e0 ≤ s) :
    range_read_le B rs re = none ∧ range_read_be B rs re = none ∧
    write_le_compound B v rs re = none ∧ write_be_compound B v rs re = none := by
  have hset : ∀ n, setup_iter n rs re = none := by
    intro n
    rcases h with h | ⟨e0, s, hre, he0, hs, hes⟩
    · subst h
      have hend : resolveEnd (Bound.excluded 0) = none := by
        simp only [resolveEnd]
        unfold checkedSub
        rw [if_neg (by omega)]
      unfold setup_iter
      cases hrs : resolveStart rs with
      | none => simp only [hrs]
      | some s => simp only [hrs, hend]
    · subst hre
      have hend : resolveEnd (Bound.excluded e0) = some (e0 - 1) := by
        simp only [resolveEnd]
        unfold checkedSub
        rw [if_pos he0]
      have hcs : checkedSub (e0 - 1) s = none := by
        unfold checkedSub
        rw [if_neg (by omega)]
      unfold setup_iter
      simp only [hs, hend, hcs]
  refine ⟨?_, ?_, ?_, ?_⟩
  · exact read_impl_of_setup_none (hset B.length)
  · unfold range_read_be
    exact read_impl_of_setup_none (hset B.reverse.length)
  · exact write_le_of_setup_none (hset B.length)
  · rw [write_be_eq, write_le_of_setup_none (hset B.reverse.length)]
    rfl

/-- Witness for C9: the reversed range 5..3 fails in every operation. -/
theorem C9_witness :
    range_read_le [7] (Bound.included 5) (Bound.excluded 3) = none ∧
    range_read_be [7] (Bound.included 5) (Bound.excluded 3) = none ∧
    write_le_compound [7] 0 (Bound.included 5) (Bound.excluded 3) = none ∧
    write_be_compound [7] 0 (Bound.included 5) (Bound.excluded 3) = none :=
  C9_underflow [7] 0 (Bound.included 5) (Bound.excluded 3)
    (Or.inr ⟨3, 5, rfl, by decide, rfl, by decide⟩)

/-- C10 counterexample: the empty range `1..1` does not resolve to
`total_bits = 0` with reads returning 0 and writes leaving the buffer
unchanged — the intermediate subtraction `end_bit - start_bit`
(`0 - 1` here) underflows, so the calls fail instead. -/
theorem C10_counterexample :
    range_read_le [171] (Bound.included 1) (Bound.excluded 1) ≠ some 0 ∧
    write_le_compound [171] 5 (Bound.included 1) (Bound.excluded 1) ≠ some [171] ∧
    range_read_le [171] (Bound.included 1) (Bound.excluded 1) = none := by
  refine ⟨by decide, by decide, by decide⟩

/-- C10 amended: for `a ≥ 1` the empty half-open range `a..a` makes the
resolver's subtraction `end_bit - start_bit` underflow (`a - 1 < a`), so
under checked (debug) arithmetic every read and write of that range
panics — no value is returned and the buffer is not mutated, in both
directionalities. -/
theorem C10_empty_range (B : List Nat) (v : Nat) (a n : Nat) (ha : 1 ≤ a) :
    setup_iter n (Bound.included a) (Bound.excluded a) = none ∧
    range_read_le B (Bound.included a) (Bound.excluded a) = none ∧
    range_read_be B (Bound.included a) (Bound.excluded a) = none ∧
    write_le_compound B v (Bound.included a) (Bound.excluded a) = none ∧
    write_be_compound B v (Bound.included a) (Bound.excluded a) = none := by
  have hset : ∀ m, setup_iter m (Bound.included a) (Bound.excluded a) = none := by
    intro m
    have hend : resolveEnd (Bound.excluded a) = some (a - 1) := by
      simp only [resolveEnd]
      unfold checkedSub
      rw [if_pos ha]
    have hcs : checkedSub (a - 1) a = none := by
      unfold checkedSub
      rw [if_neg (by omega)]
    unfold setup_iter
    simp only [resolveStart, hend, hcs]
  refine ⟨hset n, ?_, ?_, ?_, ?_⟩
  · exact read_impl_of_setup_none (hset B.length)
  · unfold range_read_be
    exact read_impl_of_setup_none (hset B.reverse.length)
  · exact write_le_of_setup_none (hset B.length)
  · rw [write_be_eq, write_le_of_setup_none (hset B.reverse.length)]
    rfl

/-- Witness for the amended C10 at the range `2..2` on a 2-byte buffer. -/
theorem C10_witness :
    setup_iter 5 (Bound.included 2) (Bound.excluded 2) = none ∧
    range_read_le [3, 4] (Bound.included 2) (Bound.excluded 2) = none ∧
    range_read_be [3, 4] (Bound.included 2) (Bound.excluded 2) = none ∧
    write_le_compound [3, 4] 9 (Bound.included 2) (Bound.excluded 2) = none ∧
    write_be_compound [3, 4] 9 (Bound.included 2) (Bound.excluded 2) = none :=
  C10_empty_range [3, 4] 9 2 5 (by decide)

end SimpleBitrange
